import Mathlib

/-!
Verification of the column-pair matching engine of `main.go` (EDMS).

The Go source is shallowly embedded: each Go function below is translated into
a total Lean function of the same name (strings are modelled as Lean `String`
values and traversed character-wise, Go loops become structural recursion over
lists, and the `matchedPairs` map keyed by `"%d-%d"` strings becomes a list of
`Nat × Nat` pairs, which is faithful because that key format is injective on
row numbers).
-/

namespace EDMS

/-- Models Go `unicode.IsSpace` on the Latin-1 range (the white-space
characters Go's `strings.TrimSpace` strips there). -/
def isSpaceChar (c : Char) : Bool :=
  c = ' ' || c = '\t' || c = '\n' || c = '\u000B' || c = '\u000C' || c = '\r' ||
  c = '\u0085' || c = ' '

/-- Models Go `strings.ToLower` on the ASCII range (the repository's claims do
not exercise case mapping outside ASCII). -/
def lowerChar (c : Char) : Char :=
  if 'A' ≤ c ∧ c ≤ 'Z' then Char.ofNat (c.toNat + 32) else c

/-- Models Go `strings.TrimSpace`: drop white space from both ends. -/
def trimSpace (s : List Char) : List Char :=
  (((s.dropWhile isSpaceChar).reverse).dropWhile isSpaceChar).reverse

/-- `standardKey` from `main.go` (line 48): a case-insensitive, trimmed key,
`strings.TrimSpace(strings.ToLower(val))`. -/
def standardKey (val : String) : String :=
  ⟨trimSpace (val.data.map lowerChar)⟩

/-- The three-way `min` from `main.go` (line 75). -/
def min3 (a b c : Nat) : Nat :=
  if a < b then (if a < c then a else c) else (if b < c then b else c)

/-- `max` from `main.go` (line 84). -/
def max2 (a b : Nat) : Nat := if a > b then a else b

/-- One iteration of the inner loop of `levenshteinDistance` (lines 65-69):
given the previous row `v0` (as `diag :: up :: rest`), the character `c` of
`s1` for this row, the remaining characters of `s2`, and the value `left`
just written into `v1`, produce the rest of the new row `v1`. -/
def rowStep (c : Char) : List Char → List Nat → Nat → List Nat
  | y :: ys, diag :: up :: rest, left =>
    min3 (left + 1) (up + 1) (diag + (if c = y then 0 else 1)) ::
      rowStep c ys (up :: rest) (min3 (left + 1) (up + 1) (diag + (if c = y then 0 else 1)))
  | _, _, _ => []

/-- The outer loop of `levenshteinDistance` (lines 63-71): fold the row update
over the characters of `s1`, starting from row number `i = 1`; returns the
final row. -/
def levRows : List Char → List Char → List Nat → Nat → List Nat
  | [], _, v0, _ => v0
  | c :: rest, s2, v0, i => levRows rest s2 (i :: rowStep c s2 v0 i) (i + 1)

/-- `levenshteinDistance` from `main.go` (lines 53-73): two-buffer dynamic
programming over the characters of the two strings, with the source's three
early returns. The result is `v1[len(s2)]`, the last entry of the final row. -/
def levenshteinDistance (s1 s2 : String) : Nat :=
  if s1 = s2 then 0
  else if s1.length = 0 then s2.length
  else if s2.length = 0 then s1.length
  else (levRows s1.data s2.data (List.range (s2.data.length + 1)) 1).getD s2.data.length 0

/-- `isFuzzyMatch` from `main.go` (lines 90-102). The threshold is Go `int`,
so it is modelled as `Int`; the decision `dist*100 <= maxLen*threshold` is the
source's integer comparison. -/
def isFuzzyMatch (val1 val2 : String) (threshold : Int) : Bool :=
  let s1 := standardKey val1
  let s2 := standardKey val2
  if s1 = s2 then true
  else if s1 = "" ∨ s2 = "" then false
  else
    let maxLen := max2 s1.length s2.length
    if maxLen = 0 then true
    else decide ((levenshteinDistance s1 s2 : Int) * 100 ≤ (maxLen : Int) * threshold)

/-- `SheetData` from `main.go` (lines 24-27). -/
structure SheetData where
  Headers : List String
  Rows : List (List String)
deriving DecidableEq

/-- `MatchResult` from `main.go` (lines 116-122). -/
structure MatchResult where
  OriginalRow1 : Nat
  OriginalRow2 : Nat
  Val1 : String
  Val2 : String
  IsFuzzy : Bool
deriving DecidableEq

/-- `MatchGroup` from `main.go` (lines 124-130). -/
structure MatchGroup where
  Tab1 : String
  Tab2 : String
  Header1 : String
  Header2 : String
  Matches : List MatchResult
deriving DecidableEq

/-- The inputs `matchHandler` reads after decoding the request and looking up
the two sheets: the two datasets, the two sheet names, and the fuzzy flag and
threshold of the request. -/
structure MatchEnv where
  sheet1 : SheetData
  sheet2 : SheetData
  tab1 : String
  tab2 : String
  useFuzzy : Bool
  threshold : Int

/-- The per-column index of `matchHandler` (lines 255-263) combined with its
lookup (line 272): `keyMapLookup rows2 c2 key` is the list `keyMap2[key]`,
i.e. the row numbers `r2 + 2` of the rows of dataset B whose cell in column
`c2` exists and has normalized key equal to `key` (empty keys are never
stored). `n` is the index of the first row of the remaining list. -/
def keyMapAux (c2 : Nat) (key : String) : List (List String) → Nat → List Nat
  | [], _ => []
  | row2 :: rest, n =>
    if c2 < row2.length ∧ standardKey (row2.getD c2 "") ≠ "" ∧
        standardKey (row2.getD c2 "") = key then
      (n + 2) :: keyMapAux c2 key rest (n + 1)
    else keyMapAux c2 key rest (n + 1)

/-- Lookup `keyMap2[key]` for the index built over column `c2` of `rows2`. -/
def keyMapLookup (rows2 : List (List String)) (c2 : Nat) (key : String) : List Nat :=
  keyMapAux c2 key rows2 0

/-- The exact/standard match step of `matchHandler` (lines 271-288): walk the
candidate row numbers from the index, skip pairs already in `matchedPairs`,
and append an exact `MatchResult` (reading `Rows[row2Idx-2][c2]` for `Val2`)
and the pair otherwise. -/
def exactPass (val1 : String) (row1Idx : Nat) (rows2 : List (List String)) (c2 : Nat) :
    List Nat → List MatchResult → List (Nat × Nat) → List MatchResult × List (Nat × Nat)
  | [], ms, mp => (ms, mp)
  | idx :: rest, ms, mp =>
    if (row1Idx, idx) ∈ mp then exactPass val1 row1Idx rows2 c2 rest ms mp
    else
      exactPass val1 row1Idx rows2 c2 rest
        (ms ++ [⟨row1Idx, idx, val1, (rows2.getD (idx - 2) []).getD c2 "", false⟩])
        (mp ++ [(row1Idx, idx)])

/-- The fuzzy match step of `matchHandler` (lines 290-311): scan all rows of
dataset B (with `n` the index of the first remaining row), skip consumed
pairs, skip rows too short for column `c2`, and append a fuzzy `MatchResult`
and the pair when `isFuzzyMatch` accepts. -/
def fuzzyPass (val1 : String) (row1Idx : Nat) (c2 : Nat) (threshold : Int) :
    List (List String) → Nat → List MatchResult → List (Nat × Nat) →
    List MatchResult × List (Nat × Nat)
  | [], _, ms, mp => (ms, mp)
  | row2 :: rest, n, ms, mp =>
    if (row1Idx, n + 2) ∈ mp then fuzzyPass val1 row1Idx c2 threshold rest (n + 1) ms mp
    else if row2.length ≤ c2 then fuzzyPass val1 row1Idx c2 threshold rest (n + 1) ms mp
    else if isFuzzyMatch val1 (row2.getD c2 "") threshold then
      fuzzyPass val1 row1Idx c2 threshold rest (n + 1)
        (ms ++ [⟨row1Idx, n + 2, val1, row2.getD c2 "", true⟩])
        (mp ++ [(row1Idx, n + 2)])
    else fuzzyPass val1 row1Idx c2 threshold rest (n + 1) ms mp

/-- Processing of one row of dataset A inside the column-pair loop of
`matchHandler` (lines 265-312): skip the row if it is too short for column
`c1`, otherwise run the exact pass over the index lookup for its key and
then, if fuzzy matching is enabled, the fuzzy scan over all of dataset B. -/
def procRow (env : MatchEnv) (c1 c2 : Nat) (row1 : List String) (r1 : Nat)
    (ms : List MatchResult) (mp : List (Nat × Nat)) :
    List MatchResult × List (Nat × Nat) :=
  if row1.length ≤ c1 then (ms, mp)
  else if env.useFuzzy then
    fuzzyPass (row1.getD c1 "") (r1 + 2) c2 env.threshold env.sheet2.Rows 0
      (exactPass (row1.getD c1 "") (r1 + 2) env.sheet2.Rows c2
        (keyMapLookup env.sheet2.Rows c2 (standardKey (row1.getD c1 ""))) ms mp).1
      (exactPass (row1.getD c1 "") (r1 + 2) env.sheet2.Rows c2
        (keyMapLookup env.sheet2.Rows c2 (standardKey (row1.getD c1 ""))) ms mp).2
  else
    exactPass (row1.getD c1 "") (r1 + 2) env.sheet2.Rows c2
      (keyMapLookup env.sheet2.Rows c2 (standardKey (row1.getD c1 ""))) ms mp

/-- The loop over the rows of dataset A for one column pair (line 265),
with `n` the index of the first remaining row. -/
def rowPass (env : MatchEnv) (c1 c2 : Nat) :
    List (List String) → Nat → List MatchResult → List (Nat × Nat) →
    List MatchResult × List (Nat × Nat)
  | [], _, ms, mp => (ms, mp)
  | row1 :: rest, n, ms, mp =>
    rowPass env c1 c2 rest (n + 1) (procRow env c1 c2 row1 n ms mp).1
      (procRow env c1 c2 row1 n ms mp).2

/-- One full column pair (c1, c2) of `matchHandler`: the fresh `matches`
accumulator starts empty, the `matchedPairs` set is carried in. -/
def pairRun (env : MatchEnv) (c1 c2 : Nat) (mp : List (Nat × Nat)) :
    List MatchResult × List (Nat × Nat) :=
  rowPass env c1 c2 env.sheet1.Rows 0 [] mp

/-- The inner `c2` loop of `matchHandler` (lines 251-323): run each column
pair and append a `MatchGroup` exactly when it produced matches. -/
def colPass2 (env : MatchEnv) (c1 : Nat) :
    List Nat → List MatchGroup → List (Nat × Nat) →
    List MatchGroup × List (Nat × Nat)
  | [], gs, mp => (gs, mp)
  | c2 :: rest, gs, mp =>
    colPass2 env c1 rest
      (if (pairRun env c1 c2 mp).1 = [] then gs
       else gs ++ [⟨env.tab1, env.tab2, env.sheet1.Headers.getD c1 "",
                    env.sheet2.Headers.getD c2 "", (pairRun env c1 c2 mp).1⟩])
      (pairRun env c1 c2 mp).2

/-- The outer `c1` loop of `matchHandler` (line 250). -/
def colPass1 (env : MatchEnv) :
    List Nat → List MatchGroup → List (Nat × Nat) →
    List MatchGroup × List (Nat × Nat)
  | [], gs, mp => (gs, mp)
  | c1 :: rest, gs, mp =>
    colPass1 env rest (colPass2 env c1 (List.range env.sheet2.Headers.length) gs mp).1
      (colPass2 env c1 (List.range env.sheet2.Headers.length) gs mp).2

/-- The complete matching computation of `matchHandler` (lines 243-324):
iterate every column of dataset A against every column of dataset B, with one
`matchedPairs` set created before the loops (line 248) and shared by all
column pairs. -/
def matchRun (env : MatchEnv) : List MatchGroup :=
  (colPass1 env (List.range env.sheet1.Headers.length) [] []).1

/-! ### The mathematical specification of edit distance

`lev` is the textbook head recursion for Levenshtein distance; `EStep` is a
single-character edit on a character list, and `StepsN n xs ys` says `ys` is
reachable from `xs` in exactly `n` edits.  We prove that `levenshteinDistance`
computes the least `n` with `StepsN n s1 s2`. -/

/-- Textbook recursive Levenshtein distance on character lists. -/
def lev : List Char → List Char → Nat
  | [], ys => ys.length
  | x :: xs, [] => (x :: xs).length
  | x :: xs, y :: ys =>
    min (lev xs (y :: ys) + 1)
      (min (lev (x :: xs) ys + 1) (lev xs ys + (if x = y then 0 else 1)))

/-- A single-character edit: insertion, deletion or substitution at an
arbitrary position. -/
inductive EStep : List Char → List Char → Prop
  | ins (pre post : List Char) (c : Char) : EStep (pre ++ post) (pre ++ c :: post)
  | del (pre post : List Char) (c : Char) : EStep (pre ++ c :: post) (pre ++ post)
  | subst (pre post : List Char) (c c' : Char) : EStep (pre ++ c :: post) (pre ++ c' :: post)

/-- `StepsN n xs ys`: `ys` is obtained from `xs` by exactly `n` single-character
edits. -/
inductive StepsN : Nat → List Char → List Char → Prop
  | refl (xs : List Char) : StepsN 0 xs xs
  | tail {n : Nat} {xs ys zs : List Char} :
      StepsN n xs ys → EStep ys zs → StepsN (n + 1) xs zs

/-- The intended contents of a DP row: `rowSpec A B ys` lists
`lev A (B ++ ys.take j)` for `j = 1 .. ys.length`. -/
def rowSpec (A : List Char) : List Char → List Char → List Nat
  | _, [] => []
  | B, y :: ys => lev A (B ++ [y]) :: rowSpec A (B ++ [y]) ys

/-- The `(OriginalRow1, OriginalRow2)` pairs of a list of records, i.e. the
contents `matchedPairs` accumulates (its `"%d-%d"` keys are injective on row
numbers, so pairs model it faithfully). -/
def pairsOf (ms : List MatchResult) : List (Nat × Nat) :=
  ms.map fun m => (m.OriginalRow1, m.OriginalRow2)

/-- All records of a list of groups, in emission order. -/
def recsOf (gs : List MatchGroup) : List MatchResult :=
  gs.flatMap MatchGroup.Matches

/-- The A-side of a sound record for column `c1`: it comes from an existing
row of dataset A, long enough for `c1`, its row number is offset by 2, and
`Val1` is that row's cell. -/
def RecA (env : MatchEnv) (c1 : Nat) (m : MatchResult) : Prop :=
  ∃ i, i < env.sheet1.Rows.length ∧ m.OriginalRow1 = i + 2 ∧
    c1 < (env.sheet1.Rows.getD i []).length ∧
    m.Val1 = (env.sheet1.Rows.getD i []).getD c1 ""

/-- The B-side of a sound record for column `c2`. -/
def RecB (env : MatchEnv) (c2 : Nat) (m : MatchResult) : Prop :=
  ∃ j, j < env.sheet2.Rows.length ∧ m.OriginalRow2 = j + 2 ∧
    c2 < (env.sheet2.Rows.getD j []).length ∧
    m.Val2 = (env.sheet2.Rows.getD j []).getD c2 ""

/-- What the fuzzy flag of an emitted record guarantees: exact records have
equal non-empty keys; fuzzy records were accepted by `isFuzzyMatch` with
fuzzy matching enabled, and are never pairs the exact pass of the same
column pair would have discovered. -/
def RecKind (env : MatchEnv) (m : MatchResult) : Prop :=
  (m.IsFuzzy = false →
    standardKey m.Val1 = standardKey m.Val2 ∧ standardKey m.Val1 ≠ "") ∧
  (m.IsFuzzy = true → env.useFuzzy = true ∧
    isFuzzyMatch m.Val1 m.Val2 env.threshold = true ∧
    ¬(standardKey m.Val1 = standardKey m.Val2 ∧ standardKey m.Val1 ≠ ""))

/-- Concrete run: dataset A has two columns both holding `"x"` in its single
row, dataset B one column holding `"x"`; the row pair matches under both
column pairs. -/
def envPairScope : MatchEnv :=
  ⟨⟨["h1", "h2"], [["x", "x"]]⟩, ⟨["g"], [["x"]]⟩, "S1", "S2", false, 0⟩

/-- Concrete run for the many-to-many claim with two column pairs: the A-row
matches the single B-row under both column pairs. -/
def envManyCols : MatchEnv :=
  ⟨⟨["p", "q"], [["y", "y"]]⟩, ⟨["r"], [["y"]]⟩, "S1", "S2", false, 0⟩

/-- Concrete run: both datasets hold a single blank cell, fuzzy enabled. -/
def envBlank : MatchEnv :=
  ⟨⟨["H"], [[""]]⟩, ⟨["G"], [[""]]⟩, "S1", "S2", true, 0⟩

/-- Concrete run: the spec's exact-priority test (`"foo"` vs `"foo"`, fuzzy on
with threshold 50). -/
def envFoo : MatchEnv :=
  ⟨⟨["H"], [["foo"]]⟩, ⟨["G"], [["foo"]]⟩, "S1", "S2", true, 50⟩

/-- Concrete run: the spec's many-to-many test (`"Alice"` against two rows
`"alice"`, fuzzy off). -/
def envAlice : MatchEnv :=
  ⟨⟨["Name"], [["Alice"]]⟩, ⟨["FullName"], [["alice"], ["alice"]]⟩, "S1", "S2", false, 0⟩

/-- Concrete run with a ragged row: the second A-row has no cell in column 1. -/
def envRagged : MatchEnv :=
  ⟨⟨["h1", "h2"], [["a", "b"], ["c"]]⟩, ⟨["g"], [["b"]]⟩, "S1", "S2", false, 0⟩

/-- Concrete run with one exact match, used for witnesses. -/
def envExact : MatchEnv :=
  ⟨⟨["A"], [["a"]]⟩, ⟨["B"], [["a"]]⟩, "S1", "S2", false, 0⟩

/-- The group `matchRun envExact` produces. -/
def gExact : MatchGroup := ⟨"S1", "S2", "A", "B", [⟨2, 2, "a", "a", false⟩]⟩

/-- The record `matchRun envExact` produces. -/
def mExact : MatchResult := ⟨2, 2, "a", "a", false⟩

/-- The group `matchRun envFoo` produces. -/
def gFoo : MatchGroup := ⟨"S1", "S2", "H", "G", [⟨2, 2, "foo", "foo", false⟩]⟩

/-- The group `matchRun envBlank` produces. -/
def gBlank : MatchGroup := ⟨"S1", "S2", "H", "G", [⟨2, 2, "", "", true⟩]⟩

/-- The record `matchRun envBlank` produces. -/
def mBlank : MatchResult := ⟨2, 2, "", "", true⟩

/-- The group `matchRun envRagged` produces. -/
def gRagged : MatchGroup := ⟨"S1", "S2", "h2", "g", [⟨2, 2, "b", "b", false⟩]⟩

/-- The record `matchRun envRagged` produces. -/
def mRagged : MatchResult := ⟨2, 2, "b", "b", false⟩

theorem lev_nil_left (ys : List Char) : lev [] ys = ys.length := by simp [lev]

theorem lev_nil_right (xs : List Char) : lev xs [] = xs.length := by
  cases xs <;> simp [lev]

theorem lev_cons_cons (x y : Char) (xs ys : List Char) :
    lev (x :: xs) (y :: ys) =
      min (lev xs (y :: ys) + 1)
        (min (lev (x :: xs) ys + 1) (lev xs ys + (if x = y then 0 else 1))) := by
  simp [lev]

theorem lev_self (xs : List Char) : lev xs xs = 0 := by
  induction xs with
  | nil => simp [lev]
  | cons x xs ih => rw [lev_cons_cons]; simp [ih]

theorem lev_cons_le (x : Char) (xs ys : List Char) : lev (x :: xs) ys ≤ lev xs ys + 1 := by
  cases ys with
  | nil => simp [lev_nil_right]
  | cons y ys => rw [lev_cons_cons]; exact min_le_left _ _

theorem lev_cons_right_le (xs : List Char) (y : Char) (ys : List Char) :
    lev xs (y :: ys) ≤ lev xs ys + 1 := by
  cases xs with
  | nil => simp [lev_nil_left]
  | cons x xs =>
    rw [lev_cons_cons]
    exact le_trans (min_le_right _ _) (min_le_left _ _)

theorem le_min_add {v a b k : Nat} (ha : v ≤ a + k) (hb : v ≤ b + k) : v ≤ min a b + k := by
  rcases min_choice a b with h | h <;> rw [h] <;> assumption

theorem cost_cases (x y : Char) : (if x = y then 0 else 1) = 0 ∨ (if x = y then 0 else 1) = 1 := by
  split <;> simp

theorem lev_del_right (c : Char) : ∀ xs ys : List Char, lev xs ys ≤ lev xs (c :: ys) + 1 := by
  intro xs
  induction xs with
  | nil => intro ys; simp [lev_nil_left]; omega
  | cons x xs ih =>
    intro ys
    rw [lev_cons_cons x c xs ys]
    apply le_min_add
    · have h1 := lev_cons_le x xs ys
      have h2 := ih ys
      omega
    apply le_min_add
    · omega
    · have h1 := lev_cons_le x xs ys
      rcases cost_cases x c with h | h <;> omega

theorem lev_sub_right (c c' : Char) :
    ∀ xs ys : List Char, lev xs (c' :: ys) ≤ lev xs (c :: ys) + 1 := by
  intro xs
  induction xs with
  | nil => intro ys; simp [lev_nil_left]
  | cons x xs ih =>
    intro ys
    rw [lev_cons_cons x c xs ys]
    apply le_min_add
    · have h1 := lev_cons_le x xs (c' :: ys)
      have h2 := ih ys
      omega
    apply le_min_add
    · have h1 := lev_cons_right_le (x :: xs) c' ys
      omega
    · have h1 : lev (x :: xs) (c' :: ys) ≤ lev xs ys + (if x = c' then 0 else 1) := by
        rw [lev_cons_cons]
        exact le_trans (min_le_right _ _) (min_le_right _ _)
      rcases cost_cases x c' with h | h <;> rcases cost_cases x c with h' | h' <;> omega

theorem lev_lift {A B : List Char} {k : Nat} (h : ∀ xs, lev xs A ≤ lev xs B + k) (p : Char) :
    ∀ xs, lev xs (p :: A) ≤ lev xs (p :: B) + k := by
  intro xs
  induction xs with
  | nil =>
    have := h []
    simp only [lev_nil_left, List.length_cons] at this ⊢
    omega
  | cons x xs ih =>
    rw [lev_cons_cons x p xs A, lev_cons_cons x p xs B]
    have m1 : min (lev xs (p :: A) + 1)
        (min (lev (x :: xs) A + 1) (lev xs A + (if x = p then 0 else 1))) ≤
        lev xs (p :: A) + 1 := min_le_left _ _
    have m2 : min (lev xs (p :: A) + 1)
        (min (lev (x :: xs) A + 1) (lev xs A + (if x = p then 0 else 1))) ≤
        lev (x :: xs) A + 1 := le_trans (min_le_right _ _) (min_le_left _ _)
    have m3 : min (lev xs (p :: A) + 1)
        (min (lev (x :: xs) A + 1) (lev xs A + (if x = p then 0 else 1))) ≤
        lev xs A + (if x = p then 0 else 1) := le_trans (min_le_right _ _) (min_le_right _ _)
    have ha2 := h (x :: xs)
    have ha3 := h xs
    apply le_min_add
    · omega
    apply le_min_add
    · omega
    · omega

theorem lev_perturb {A B : List Char} {k : Nat} (h : ∀ xs, lev xs A ≤ lev xs B + k) :
    ∀ (pre xs : List Char), lev xs (pre ++ A) ≤ lev xs (pre ++ B) + k := by
  intro pre
  induction pre with
  | nil => simpa using h
  | cons p pre ih =>
    intro xs
    simpa using lev_lift ih p xs

theorem StepsN.head {n : Nat} {xs ys zs : List Char} (h : EStep xs ys)
    (hs : StepsN n ys zs) : StepsN (n + 1) xs zs := by
  induction hs with
  | refl _ => exact (StepsN.refl _).tail h
  | tail _ e ih => exact (ih h).tail e

theorem estep_consLift {xs ys : List Char} (c : Char) (h : EStep xs ys) :
    EStep (c :: xs) (c :: ys) := by
  cases h with
  | ins pre post c' => exact EStep.ins (c :: pre) post c'
  | del pre post c' => exact EStep.del (c :: pre) post c'
  | subst pre post a b => exact EStep.subst (c :: pre) post a b

theorem stepsN_consLift {n : Nat} {xs ys : List Char} (c : Char) (h : StepsN n xs ys) :
    StepsN n (c :: xs) (c :: ys) := by
  induction h with
  | refl _ => exact .refl _
  | tail _ e ih => exact ih.tail (estep_consLift c e)

theorem stepsN_nil_left (ys : List Char) : StepsN ys.length [] ys := by
  induction ys with
  | nil => exact .refl _
  | cons y ys ih => exact ih.tail (EStep.ins [] ys y)

theorem stepsN_nil_right (xs : List Char) : StepsN xs.length xs [] := by
  induction xs with
  | nil => exact .refl _
  | cons x xs ih => exact StepsN.head (EStep.del [] xs x) ih

theorem min3_choice (a b c : Nat) :
    min a (min b c) = a ∨ min a (min b c) = b ∨ min a (min b c) = c := by
  rcases min_choice a (min b c) with h | h
  · exact Or.inl h
  · rcases min_choice b c with h' | h'
    · exact Or.inr (Or.inl (h.trans h'))
    · exact Or.inr (Or.inr (h.trans h'))

/-- Achievability: `lev xs ys` edits suffice to transform `xs` into `ys`. -/
theorem lev_stepsN : ∀ xs ys : List Char, StepsN (lev xs ys) xs ys := by
  intro xs ys
  induction xs, ys using lev.induct with
  | case1 ys => rw [lev_nil_left]; exact stepsN_nil_left ys
  | case2 x xs => rw [lev_nil_right]; exact stepsN_nil_right (x :: xs)
  | case3 x xs y ys ih1 ih2 ih3 =>
    rw [lev_cons_cons]
    rcases min3_choice (lev xs (y :: ys) + 1) (lev (x :: xs) ys + 1)
        (lev xs ys + (if x = y then 0 else 1)) with h | h | h <;> rw [h]
    · exact StepsN.head (EStep.del [] xs x) ih1
    · exact ih2.tail (EStep.ins [] ys y)
    · by_cases hxy : x = y
      · subst hxy
        simpa using stepsN_consLift x ih3
      · simp only [if_neg hxy]
        exact (stepsN_consLift x ih3).tail (EStep.subst [] ys x y)

theorem lev_estep_right {ys zs : List Char} (e : EStep ys zs) (xs : List Char) :
    lev xs zs ≤ lev xs ys + 1 := by
  cases e with
  | ins pre post c => exact lev_perturb (fun ws => lev_cons_right_le ws c post) pre xs
  | del pre post c => exact lev_perturb (fun ws => lev_del_right c ws post) pre xs
  | subst pre post c c' => exact lev_perturb (fun ws => lev_sub_right c c' ws post) pre xs

/-- Minimality: no edit sequence is shorter than `lev`. -/
theorem stepsN_lev_le {n : Nat} {xs ys : List Char} (h : StepsN n xs ys) : lev xs ys ≤ n := by
  induction h with
  | refl xs => simp [lev_self]
  | tail _ e ih => exact le_trans (lev_estep_right e _) (Nat.add_le_add_right ih 1)

theorem lev_isLeast (xs ys : List Char) : IsLeast {n | StepsN n xs ys} (lev xs ys) :=
  ⟨lev_stepsN xs ys, fun _ hn => stepsN_lev_le hn⟩

theorem estep_rev {xs ys : List Char} (h : EStep xs ys) :
    EStep xs.reverse ys.reverse := by
  cases h with
  | ins pre post c => simpa using EStep.ins post.reverse pre.reverse c
  | del pre post c => simpa using EStep.del post.reverse pre.reverse c
  | subst pre post c c' => simpa using EStep.subst post.reverse pre.reverse c c'

theorem stepsN_rev {n : Nat} {xs ys : List Char} (h : StepsN n xs ys) :
    StepsN n xs.reverse ys.reverse := by
  induction h with
  | refl _ => exact .refl _
  | tail _ e ih => exact ih.tail (estep_rev e)

theorem lev_reverse (xs ys : List Char) : lev xs.reverse ys.reverse = lev xs ys := by
  have h1 := lev_isLeast xs.reverse ys.reverse
  have h2 := lev_isLeast xs ys
  have hset : {n | StepsN n xs.reverse ys.reverse} = {n | StepsN n xs ys} := by
    ext n
    constructor
    · intro h
      simpa using stepsN_rev h
    · exact fun h => stepsN_rev h
  rw [hset] at h1
  exact h1.unique h2

theorem estep_symm {xs ys : List Char} (h : EStep xs ys) : EStep ys xs := by
  cases h with
  | ins pre post c => exact .del pre post c
  | del pre post c => exact .ins pre post c
  | subst pre post c c' => exact .subst pre post c' c

theorem stepsN_symm {n : Nat} {xs ys : List Char} (h : StepsN n xs ys) : StepsN n ys xs := by
  induction h with
  | refl _ => exact .refl _
  | tail _ e ih => exact StepsN.head (estep_symm e) ih

theorem lev_comm (xs ys : List Char) : lev xs ys = lev ys xs := by
  have h1 := lev_isLeast xs ys
  have h2 := lev_isLeast ys xs
  have hset : {n | StepsN n xs ys} = {n | StepsN n ys xs} := by
    ext n
    exact ⟨fun h => stepsN_symm h, fun h => stepsN_symm h⟩
  rw [hset] at h1
  exact h1.unique h2

/-! ### The two-buffer dynamic program computes `lev` -/

theorem min3_eq (a b c : Nat) : min3 a b c = min a (min b c) := by
  simp only [min3, Nat.min_def]
  split_ifs <;> omega

/-- The snoc form of the Levenshtein recurrence, obtained from the cons form
by reversal (edit scripts reverse step by step). -/
theorem lev_snoc (A B : List Char) (a b : Char) :
    lev (A ++ [a]) (B ++ [b]) =
      min3 (lev (A ++ [a]) B + 1) (lev A (B ++ [b]) + 1)
        (lev A B + (if a = b then 0 else 1)) := by
  have h1 : lev (A ++ [a]) (B ++ [b]) = lev (a :: A.reverse) (b :: B.reverse) := by
    rw [← lev_reverse (A ++ [a]) (B ++ [b])]
    simp
  have h2 : lev A.reverse (b :: B.reverse) = lev A (B ++ [b]) := by
    rw [← lev_reverse A (B ++ [b])]
    simp
  have h3 : lev (a :: A.reverse) B.reverse = lev (A ++ [a]) B := by
    rw [← lev_reverse (A ++ [a]) B]
    simp
  have h4 : lev A.reverse B.reverse = lev A B := lev_reverse A B
  rw [h1, lev_cons_cons, h2, h3, h4, min3_eq, min_left_comm]

theorem rowStep_correct (a : Char) (A : List Char) :
    ∀ ys B : List Char,
      rowStep a ys (lev A B :: rowSpec A B ys) (lev (A ++ [a]) B) =
        rowSpec (A ++ [a]) B ys := by
  intro ys
  induction ys with
  | nil => intro B; rfl
  | cons y ys ih =>
    intro B
    show rowStep a (y :: ys)
        (lev A B :: lev A (B ++ [y]) :: rowSpec A (B ++ [y]) ys) (lev (A ++ [a]) B) = _
    rw [rowStep, ← lev_snoc A B a y, ih (B ++ [y])]
    rfl

theorem levRows_correct (s2 : List Char) :
    ∀ c1s A : List Char,
      levRows c1s s2 (A.length :: rowSpec A [] s2) (A.length + 1) =
        lev (A ++ c1s) [] :: rowSpec (A ++ c1s) [] s2 := by
  intro c1s
  induction c1s with
  | nil => intro A; simp [levRows, lev_nil_right]
  | cons c rest ih =>
    intro A
    rw [levRows]
    have hr : rowStep c s2 (A.length :: rowSpec A [] s2) (A.length + 1) =
        rowSpec (A ++ [c]) [] s2 := by
      have h := rowStep_correct c A s2 []
      simp only [lev_nil_right, List.append_nil, List.length_append,
        List.length_cons, List.length_nil] at h
      exact h
    rw [hr]
    have hl : A.length + 1 = (A ++ [c]).length := by simp
    rw [hl, ih (A ++ [c])]
    simp

theorem rowSpec_zero : ∀ ys B : List Char,
    B.length :: rowSpec [] B ys = List.range' B.length (ys.length + 1) := by
  intro ys
  induction ys with
  | nil => intro B; simp [rowSpec]
  | cons y ys ih =>
    intro B
    rw [rowSpec, lev_nil_left]
    have h := ih (B ++ [y])
    simp only [List.length_append, List.length_cons, List.length_nil] at h ⊢
    rw [h]
    simp [List.range'_succ]

theorem rowSpec_getD : ∀ (ys B A : List Char),
    (lev A B :: rowSpec A B ys).getD ys.length 0 = lev A (B ++ ys) := by
  intro ys
  induction ys with
  | nil => intro B A; simp [rowSpec]
  | cons y ys ih =>
    intro B A
    rw [rowSpec]
    show (lev A B :: lev A (B ++ [y]) :: rowSpec A (B ++ [y]) ys).getD (ys.length + 1) 0 = _
    rw [List.getD_cons_succ, ih (B ++ [y]) A]
    simp

/-- The Go function agrees with the textbook recursion. -/
theorem levenshteinDistance_eq_lev (s1 s2 : String) :
    levenshteinDistance s1 s2 = lev s1.data s2.data := by
  unfold levenshteinDistance
  split_ifs with h1 h2 h3
  · rw [h1, lev_self]
  · have : s1.data = [] := List.length_eq_zero.mp h2
    rw [this, lev_nil_left]
    rfl
  · have : s2.data = [] := List.length_eq_zero.mp h3
    rw [this, lev_nil_right]
    rfl
  · have hinit : List.range (s2.data.length + 1) =
        ([] : List Char).length :: rowSpec [] [] s2.data := by
      rw [rowSpec_zero s2.data []]
      simp [List.range_eq_range']
    rw [hinit]
    have hone : (1 : Nat) = ([] : List Char).length + 1 := rfl
    rw [hone, levRows_correct s2.data s1.data []]
    simpa using rowSpec_getD s2.data [] s1.data

/-- Distance is bounded by the longer length (used for the threshold-100
claim). -/
theorem lev_le_max : ∀ xs ys : List Char, lev xs ys ≤ max xs.length ys.length := by
  intro xs ys
  induction xs, ys using lev.induct with
  | case1 ys => simp [lev_nil_left]
  | case2 x xs => simp [lev_nil_right]
  | case3 x xs y ys ih1 ih2 ih3 =>
    rw [lev_cons_cons]
    have hm : min (lev xs (y :: ys) + 1)
        (min (lev (x :: xs) ys + 1) (lev xs ys + (if x = y then 0 else 1))) ≤
        lev xs ys + (if x = y then 0 else 1) := le_trans (min_le_right _ _) (min_le_right _ _)
    rcases cost_cases x y with h | h <;>
      simp only [List.length_cons] <;>
      rcases max_choice xs.length ys.length with h' | h' <;>
      rcases max_choice (xs.length + 1) (ys.length + 1) with h'' | h'' <;>
      omega

/-! ### Invariants of the pairing orchestrator -/

theorem mem_keyMapAux (c2 : Nat) (key : String) :
    ∀ (rows : List (List String)) (n idx : Nat),
      idx ∈ keyMapAux c2 key rows n ↔
        ∃ j, j < rows.length ∧ idx = n + j + 2 ∧ c2 < (rows.getD j []).length ∧
          standardKey ((rows.getD j []).getD c2 "") = key ∧ key ≠ "" := by
  intro rows
  induction rows with
  | nil => intro n idx; simp [keyMapAux]
  | cons row rest ih =>
    intro n idx
    rw [keyMapAux]
    split_ifs with h
    · constructor
      · intro hm
        rcases List.mem_cons.mp hm with hm | hm
        · exact ⟨0, by simp, by omega, by simpa using h.1, by simpa using h.2.2,
            by rw [← h.2.2]; exact h.2.1⟩
        · rcases (ih (n + 1) idx).mp hm with ⟨j, hj, hidx, hc, hk, hne⟩
          exact ⟨j + 1, by simpa using hj, by omega, by simpa using hc,
            by simpa using hk, hne⟩
      · rintro ⟨j, hj, hidx, hc, hk, hne⟩
        cases j with
        | zero => exact List.mem_cons.mpr (Or.inl (by omega))
        | succ j =>
          refine List.mem_cons.mpr (Or.inr ((ih (n + 1) idx).mpr
            ⟨j, by simpa using hj, by omega, by simpa using hc, by simpa using hk, hne⟩))
    · rw [ih (n + 1) idx]
      constructor
      · rintro ⟨j, hj, hidx, hc, hk, hne⟩
        exact ⟨j + 1, by simpa using hj, by omega, by simpa using hc,
          by simpa using hk, hne⟩
      · rintro ⟨j, hj, hidx, hc, hk, hne⟩
        cases j with
        | zero =>
          exfalso
          apply h
          refine ⟨by simpa using hc, ?_, by simpa using hk⟩
          have hk' : standardKey (row.getD c2 "") = key := by simpa using hk
          rw [hk']
          exact hne
        | succ j =>
          exact ⟨j, by simpa using hj, by omega, by simpa using hc, by simpa using hk, hne⟩

theorem mem_keyMapLookup (rows2 : List (List String)) (c2 : Nat) (key : String) (idx : Nat) :
    idx ∈ keyMapLookup rows2 c2 key ↔
      ∃ j, j < rows2.length ∧ idx = j + 2 ∧ c2 < (rows2.getD j []).length ∧
        standardKey ((rows2.getD j []).getD c2 "") = key ∧ key ≠ "" := by
  have h := mem_keyMapAux c2 key rows2 0 idx
  simpa using h

theorem exactPass_spec (val1 : String) (r1x : Nat) (rows2 : List (List String)) (c2 : Nat) :
    ∀ (L : List Nat) (ms : List MatchResult) (mp : List (Nat × Nat)),
      ∃ Δ : List MatchResult,
        exactPass val1 r1x rows2 c2 L ms mp = (ms ++ Δ, mp ++ pairsOf Δ) ∧
        (mp.Nodup → (mp ++ pairsOf Δ).Nodup) ∧
        (∀ m ∈ Δ, m.IsFuzzy = false ∧ m.OriginalRow1 = r1x ∧ m.OriginalRow2 ∈ L ∧
          m.Val1 = val1 ∧ m.Val2 = (rows2.getD (m.OriginalRow2 - 2) []).getD c2 "") ∧
        (∀ idx ∈ L, (r1x, idx) ∈ mp ++ pairsOf Δ) := by
  intro L
  induction L with
  | nil => intro ms mp; exact ⟨[], by simp [exactPass, pairsOf], by simp [pairsOf], by simp, by simp⟩
  | cons idx rest ih =>
    intro ms mp
    rw [exactPass]
    split_ifs with hmem
    · rcases ih ms mp with ⟨Δ, heq, hnd, hrec, hall⟩
      refine ⟨Δ, heq, hnd, ?_, ?_⟩
      · intro m hm
        rcases hrec m hm with ⟨h1, h2, h3, h4, h5⟩
        exact ⟨h1, h2, List.mem_cons_of_mem _ h3, h4, h5⟩
      · intro i hi
        rcases List.mem_cons.mp hi with rfl | hi
        · exact List.mem_append_left _ hmem
        · exact hall i hi
    · rcases ih (ms ++ [⟨r1x, idx, val1, (rows2.getD (idx - 2) []).getD c2 "", false⟩])
        (mp ++ [(r1x, idx)]) with ⟨Δ, heq, hnd, hrec, hall⟩
      refine ⟨⟨r1x, idx, val1, (rows2.getD (idx - 2) []).getD c2 "", false⟩ :: Δ, ?_, ?_, ?_, ?_⟩
      · rw [heq]
        simp [pairsOf]
      · intro hnod
        have h1 : (mp ++ [(r1x, idx)]).Nodup := by
          rw [List.nodup_append]
          refine ⟨hnod, by simp, ?_⟩
          intro a ha hb
          rw [List.mem_singleton.mp hb] at ha
          exact hmem ha
        have := hnd h1
        simpa [pairsOf] using this
      · intro m hm
        rcases List.mem_cons.mp hm with rfl | hm
        · exact ⟨rfl, rfl, List.mem_cons_self _ _, rfl, rfl⟩
        · rcases hrec m hm with ⟨h1, h2, h3, h4, h5⟩
          exact ⟨h1, h2, List.mem_cons_of_mem _ h3, h4, h5⟩
      · intro i hi
        rcases List.mem_cons.mp hi with rfl | hi
        · simp [pairsOf]
        · have := hall i hi
          simpa [pairsOf] using this

theorem fuzzyPass_spec (val1 : String) (r1x : Nat) (c2 : Nat) (th : Int) :
    ∀ (rows : List (List String)) (n : Nat) (ms : List MatchResult) (mp : List (Nat × Nat)),
      ∃ Δ : List MatchResult,
        fuzzyPass val1 r1x c2 th rows n ms mp = (ms ++ Δ, mp ++ pairsOf Δ) ∧
        (mp.Nodup → (mp ++ pairsOf Δ).Nodup) ∧
        (∀ m ∈ Δ, m.IsFuzzy = true ∧ m.OriginalRow1 = r1x ∧ m.Val1 = val1 ∧
          (∃ k, k < rows.length ∧ m.OriginalRow2 = n + k + 2 ∧
            c2 < (rows.getD k []).length ∧ m.Val2 = (rows.getD k []).getD c2 "") ∧
          isFuzzyMatch val1 m.Val2 th = true ∧ (m.OriginalRow1, m.OriginalRow2) ∉ mp) := by
  intro rows
  induction rows with
  | nil => intro n ms mp; exact ⟨[], by simp [fuzzyPass, pairsOf], by simp [pairsOf], by simp⟩
  | cons row rest ih =>
    intro n ms mp
    rw [fuzzyPass]
    split_ifs with h1 h2 h3
    · rcases ih (n + 1) ms mp with ⟨Δ, heq, hnd, hrec⟩
      refine ⟨Δ, heq, hnd, ?_⟩
      intro m hm
      rcases hrec m hm with ⟨ha, hb, hc, ⟨k, hk, hk2, hk3, hk4⟩, he, hf⟩
      exact ⟨ha, hb, hc, ⟨k + 1, by simpa using hk, by omega, by simpa using hk3,
        by simpa using hk4⟩, he, hf⟩
    · rcases ih (n + 1) ms mp with ⟨Δ, heq, hnd, hrec⟩
      refine ⟨Δ, heq, hnd, ?_⟩
      intro m hm
      rcases hrec m hm with ⟨ha, hb, hc, ⟨k, hk, hk2, hk3, hk4⟩, he, hf⟩
      exact ⟨ha, hb, hc, ⟨k + 1, by simpa using hk, by omega, by simpa using hk3,
        by simpa using hk4⟩, he, hf⟩
    · rcases ih (n + 1) (ms ++ [⟨r1x, n + 2, val1, row.getD c2 "", true⟩])
        (mp ++ [(r1x, n + 2)]) with ⟨Δ, heq, hnd, hrec⟩
      refine ⟨⟨r1x, n + 2, val1, row.getD c2 "", true⟩ :: Δ, ?_, ?_, ?_⟩
      · rw [heq]
        simp [pairsOf]
      · intro hnod
        have hmp : (mp ++ [(r1x, n + 2)]).Nodup := by
          rw [List.nodup_append]
          refine ⟨hnod, by simp, ?_⟩
          intro a ha hb
          rw [List.mem_singleton.mp hb] at ha
          exact h1 ha
        have := hnd hmp
        simpa [pairsOf] using this
      · intro m hm
        rcases List.mem_cons.mp hm with rfl | hm
        · exact ⟨rfl, rfl, rfl, ⟨0, by simp, by simp, by simpa using not_le.mp h2,
            by simp⟩, h3, h1⟩
        · rcases hrec m hm with ⟨ha, hb, hc, ⟨k, hk, hk2, hk3, hk4⟩, he, hf⟩
          refine ⟨ha, hb, hc, ⟨k + 1, by simpa using hk, by omega, by simpa using hk3,
            by simpa using hk4⟩, he, ?_⟩
          intro hcon
          exact hf (List.mem_append_left _ hcon)
    · rcases ih (n + 1) ms mp with ⟨Δ, heq, hnd, hrec⟩
      refine ⟨Δ, heq, hnd, ?_⟩
      intro m hm
      rcases hrec m hm with ⟨ha, hb, hc, ⟨k, hk, hk2, hk3, hk4⟩, he, hf⟩
      exact ⟨ha, hb, hc, ⟨k + 1, by simpa using hk, by omega, by simpa using hk3,
        by simpa using hk4⟩, he, hf⟩

theorem procRow_spec (env : MatchEnv) (c1 c2 : Nat) (row1 : List String) (r1 : Nat)
    (ms : List MatchResult) (mp : List (Nat × Nat)) :
    ∃ Δ : List MatchResult,
      procRow env c1 c2 row1 r1 ms mp = (ms ++ Δ, mp ++ pairsOf Δ) ∧
      (mp.Nodup → (mp ++ pairsOf Δ).Nodup) ∧
      (∀ m ∈ Δ, m.OriginalRow1 = r1 + 2 ∧ c1 < row1.length ∧
        m.Val1 = row1.getD c1 "" ∧ RecB env c2 m ∧ RecKind env m) ∧
      (c1 < row1.length →
        ∀ idx ∈ keyMapLookup env.sheet2.Rows c2 (standardKey (row1.getD c1 "")),
          (r1 + 2, idx) ∈ mp ++ pairsOf Δ) := by
  unfold procRow
  split_ifs with hlen huse
  · exact ⟨[], by simp [pairsOf], by simp [pairsOf], by simp, fun h => absurd h (by omega)⟩
  · rcases exactPass_spec (row1.getD c1 "") (r1 + 2) env.sheet2.Rows c2
      (keyMapLookup env.sheet2.Rows c2 (standardKey (row1.getD c1 ""))) ms mp with
      ⟨Δ₁, heq1, hnd1, hrec1, hall1⟩
    rw [heq1]
    rcases fuzzyPass_spec (row1.getD c1 "") (r1 + 2) c2 env.threshold env.sheet2.Rows 0
      (ms ++ Δ₁) (mp ++ pairsOf Δ₁) with ⟨Δ₂, heq2, hnd2, hrec2⟩
    rw [heq2]
    refine ⟨Δ₁ ++ Δ₂, by simp [pairsOf], ?_, ?_, ?_⟩
    · intro hnod
      have := hnd2 (hnd1 hnod)
      simpa [pairsOf] using this
    · intro m hm
      rcases List.mem_append.mp hm with hm | hm
      · rcases hrec1 m hm with ⟨h1, h2, h3, h4, h5⟩
        rcases (mem_keyMapLookup _ _ _ _).mp h3 with ⟨j, hj, hOr2, hc2j, hkj, hkne⟩
        have hjsub : m.OriginalRow2 - 2 = j := by omega
        refine ⟨h2, by omega, h4, ⟨j, hj, hOr2, hc2j, by rw [h5, hjsub]⟩, ?_, ?_⟩
        · intro _
          constructor
          · rw [h4, h5, hjsub]
            exact hkj.symm
          · rw [h4]
            exact hkne
        · intro hcontra
          rw [h1] at hcontra
          cases hcontra
      · rcases hrec2 m hm with ⟨ha, hb, hc, ⟨k, hk, hk2, hk3, hk4⟩, he, hf⟩
        refine ⟨hb, by omega, hc, ⟨k, hk, by omega, hk3, hk4⟩, ?_, ?_⟩
        · intro hcontra
          rw [ha] at hcontra
          cases hcontra
        · intro _
          refine ⟨huse, by rw [hc]; exact he, ?_⟩
          rintro ⟨hkeq, hkne2⟩
          have hkne3 : standardKey (row1.getD c1 "") ≠ "" := by rw [← hc]; exact hkne2
          have hmem2 : m.OriginalRow2 ∈
              keyMapLookup env.sheet2.Rows c2 (standardKey (row1.getD c1 "")) := by
            refine (mem_keyMapLookup _ _ _ _).mpr ⟨k, hk, by omega, hk3, ?_, hkne3⟩
            rw [← hk4]
            rw [← hc]
            exact hkeq.symm
          have := hall1 _ hmem2
          rw [← hb] at this
          exact hf this
    · intro hc1 idx hidx
      have := hall1 idx hidx
      rcases List.mem_append.mp this with h | h
      · exact List.mem_append_left _ h
      · refine List.mem_append_right _ ?_
        simp only [pairsOf, List.map_append]
        exact List.mem_append_left _ h
  · rcases exactPass_spec (row1.getD c1 "") (r1 + 2) env.sheet2.Rows c2
      (keyMapLookup env.sheet2.Rows c2 (standardKey (row1.getD c1 ""))) ms mp with
      ⟨Δ₁, heq1, hnd1, hrec1, hall1⟩
    rw [heq1]
    refine ⟨Δ₁, rfl, hnd1, ?_, fun _ => hall1⟩
    intro m hm
    rcases hrec1 m hm with ⟨h1, h2, h3, h4, h5⟩
    rcases (mem_keyMapLookup _ _ _ _).mp h3 with ⟨j, hj, hOr2, hc2j, hkj, hkne⟩
    have hjsub : m.OriginalRow2 - 2 = j := by omega
    refine ⟨h2, by omega, h4, ⟨j, hj, hOr2, hc2j, by rw [h5, hjsub]⟩, ?_, ?_⟩
    · intro _
      constructor
      · rw [h4, h5, hjsub]
        exact hkj.symm
      · rw [h4]
        exact hkne
    · intro hcontra
      rw [h1] at hcontra
      cases hcontra

theorem rowPass_spec (env : MatchEnv) (c1 c2 : Nat) :
    ∀ (rows : List (List String)) (n : Nat) (ms : List MatchResult) (mp : List (Nat × Nat)),
      ∃ Δ : List MatchResult,
        rowPass env c1 c2 rows n ms mp = (ms ++ Δ, mp ++ pairsOf Δ) ∧
        (mp.Nodup → (mp ++ pairsOf Δ).Nodup) ∧
        (∀ m ∈ Δ, ∃ k, k < rows.length ∧ m.OriginalRow1 = n + k + 2 ∧
          c1 < (rows.getD k []).length ∧ m.Val1 = (rows.getD k []).getD c1 "" ∧
          RecB env c2 m ∧ RecKind env m) ∧
        (∀ k, k < rows.length → c1 < (rows.getD k []).length →
          ∀ idx ∈ keyMapLookup env.sheet2.Rows c2
              (standardKey ((rows.getD k []).getD c1 "")),
            (n + k + 2, idx) ∈ mp ++ pairsOf Δ) := by
  intro rows
  induction rows with
  | nil =>
    intro n ms mp
    exact ⟨[], by simp [rowPass, pairsOf], by simp [pairsOf], by simp, by simp⟩
  | cons row rest ih =>
    intro n ms mp
    rw [rowPass]
    rcases procRow_spec env c1 c2 row n ms mp with ⟨Δ₀, heq0, hnd0, hrec0, hall0⟩
    rw [heq0]
    rcases ih (n + 1) (ms ++ Δ₀) (mp ++ pairsOf Δ₀) with ⟨Δ', heq', hnd', hrec', hall'⟩
    rw [heq']
    refine ⟨Δ₀ ++ Δ', by simp [pairsOf], ?_, ?_, ?_⟩
    · intro hnod
      have := hnd' (hnd0 hnod)
      simpa [pairsOf] using this
    · intro m hm
      rcases List.mem_append.mp hm with hm | hm
      · rcases hrec0 m hm with ⟨h1, h2, h3, h4, h5⟩
        exact ⟨0, by simp, by omega, by simpa using h2, by simpa using h3, h4, h5⟩
      · rcases hrec' m hm with ⟨k, hk, hk2, hk3, hk4, hk5, hk6⟩
        exact ⟨k + 1, by simpa using hk, by omega, by simpa using hk3,
          by simpa using hk4, hk5, hk6⟩
    · intro k hk hc1 idx hidx
      cases k with
      | zero =>
        have hmem := hall0 (by simpa using hc1) idx (by simpa using hidx)
        rcases List.mem_append.mp hmem with h | h
        · exact List.mem_append_left _ h
        · have : (n + 0 + 2, idx) ∈ mp ++ (pairsOf Δ₀ ++ pairsOf Δ') := by
            refine List.mem_append_right _ (List.mem_append_left _ ?_)
            simpa using h
          simpa [pairsOf] using this
      | succ k =>
        have hmem := hall' k (by simpa using hk) (by simpa using hc1) idx
          (by simpa using hidx)
        have : (n + (k + 1) + 2, idx) ∈ (mp ++ pairsOf Δ₀) ++ pairsOf Δ' := by
          have harith : n + 1 + k + 2 = n + (k + 1) + 2 := by omega
          rw [← harith]
          exact hmem
        simpa [pairsOf, List.append_assoc] using this

theorem recsOf_nil : recsOf [] = [] := rfl

theorem recsOf_cons (g : MatchGroup) (gs : List MatchGroup) :
    recsOf (g :: gs) = g.Matches ++ recsOf gs := by
  simp [recsOf]

theorem colPass2_spec (env : MatchEnv) (c1 : Nat) :
    ∀ (c2s : List Nat) (gs : List MatchGroup) (mp : List (Nat × Nat)),
      ∃ Δg : List MatchGroup,
        colPass2 env c1 c2s gs mp = (gs ++ Δg, mp ++ pairsOf (recsOf Δg)) ∧
        (mp.Nodup → (mp ++ pairsOf (recsOf Δg)).Nodup) ∧
        (∀ g ∈ Δg, ∃ c2 ∈ c2s, g.Tab1 = env.tab1 ∧ g.Tab2 = env.tab2 ∧
          g.Header1 = env.sheet1.Headers.getD c1 "" ∧
          g.Header2 = env.sheet2.Headers.getD c2 "" ∧ g.Matches ≠ [] ∧
          ∀ m ∈ g.Matches, RecA env c1 m ∧ RecB env c2 m ∧ RecKind env m) ∧
        (∀ c2 ∈ c2s, ∀ k, k < env.sheet1.Rows.length →
          c1 < (env.sheet1.Rows.getD k []).length →
          ∀ idx ∈ keyMapLookup env.sheet2.Rows c2
              (standardKey ((env.sheet1.Rows.getD k []).getD c1 "")),
            (k + 2, idx) ∈ mp ++ pairsOf (recsOf Δg)) := by
  intro c2s
  induction c2s with
  | nil =>
    intro gs mp
    exact ⟨[], by simp [colPass2, recsOf_nil, pairsOf], by simp [recsOf_nil, pairsOf],
      by simp, by simp⟩
  | cons c2 rest ih =>
    intro gs mp
    rcases rowPass_spec env c1 c2 env.sheet1.Rows 0 [] mp with ⟨Δms, heqP, hndP, hrecP, hallP⟩
    have h1 : (pairRun env c1 c2 mp).1 = Δms := by simp [pairRun, heqP]
    have h2 : (pairRun env c1 c2 mp).2 = mp ++ pairsOf Δms := by simp [pairRun, heqP]
    by_cases hnil : Δms = []
    · have hstep : colPass2 env c1 (c2 :: rest) gs mp = colPass2 env c1 rest gs mp := by
        rw [colPass2, h1, h2, if_pos hnil, hnil]
        simp [pairsOf]
      rcases ih gs mp with ⟨Δg, heq', hnd', hgrp', hall'⟩
      refine ⟨Δg, hstep.trans heq', hnd', ?_, ?_⟩
      · intro g hg
        rcases hgrp' g hg with ⟨c2', hc2', hrest⟩
        exact ⟨c2', List.mem_cons_of_mem _ hc2', hrest⟩
      · intro c2' hc2' k hk hc1k idx hidx
        rcases List.mem_cons.mp hc2' with rfl | hc2'
        · have := hallP k hk hc1k idx hidx
          rw [hnil] at this
          simp only [pairsOf, List.map_nil, List.append_nil] at this
          have h3 : (k + 2, idx) ∈ mp := by simpa using this
          exact List.mem_append_left _ h3
        · exact hall' c2' hc2' k hk hc1k idx hidx
    · have hstep : colPass2 env c1 (c2 :: rest) gs mp =
          colPass2 env c1 rest (gs ++ [⟨env.tab1, env.tab2, env.sheet1.Headers.getD c1 "",
            env.sheet2.Headers.getD c2 "", Δms⟩]) (mp ++ pairsOf Δms) := by
        rw [colPass2, h1, h2, if_neg hnil]
      rcases ih (gs ++ [⟨env.tab1, env.tab2, env.sheet1.Headers.getD c1 "",
        env.sheet2.Headers.getD c2 "", Δms⟩]) (mp ++ pairsOf Δms) with
        ⟨Δg, heq', hnd', hgrp', hall'⟩
      refine ⟨⟨env.tab1, env.tab2, env.sheet1.Headers.getD c1 "",
        env.sheet2.Headers.getD c2 "", Δms⟩ :: Δg, ?_, ?_, ?_, ?_⟩
      · rw [hstep, heq', recsOf_cons]
        simp [pairsOf]
      · intro hnod
        have := hnd' (hndP hnod)
        rw [recsOf_cons]
        simpa [pairsOf] using this
      · intro g hg
        rcases List.mem_cons.mp hg with rfl | hg
        · refine ⟨c2, List.mem_cons_self _ _, rfl, rfl, rfl, rfl, hnil, ?_⟩
          intro m hm
          rcases hrecP m hm with ⟨k, hk, hk2, hk3, hk4, hk5, hk6⟩
          exact ⟨⟨k, hk, by omega, hk3, hk4⟩, hk5, hk6⟩
        · rcases hgrp' g hg with ⟨c2', hc2', hrest⟩
          exact ⟨c2', List.mem_cons_of_mem _ hc2', hrest⟩
      · intro c2' hc2' k hk hc1k idx hidx
        rcases List.mem_cons.mp hc2' with rfl | hc2'
        · have := hallP k hk hc1k idx hidx
          have h3 : (k + 2, idx) ∈ mp ++ pairsOf Δms := by simpa using this
          rw [recsOf_cons]
          rcases List.mem_append.mp h3 with h4 | h4
          · exact List.mem_append_left _ h4
          · refine List.mem_append_right _ ?_
            simp only [pairsOf, List.map_append]
            exact List.mem_append_left _ h4
        · have := hall' c2' hc2' k hk hc1k idx hidx
          rw [recsOf_cons]
          simpa [pairsOf, List.append_assoc] using this

theorem recsOf_append (gs1 gs2 : List MatchGroup) :
    recsOf (gs1 ++ gs2) = recsOf gs1 ++ recsOf gs2 := by
  simp [recsOf]

theorem colPass1_spec (env : MatchEnv) :
    ∀ (c1s : List Nat) (gs : List MatchGroup) (mp : List (Nat × Nat)),
      ∃ Δg : List MatchGroup,
        colPass1 env c1s gs mp = (gs ++ Δg, mp ++ pairsOf (recsOf Δg)) ∧
        (mp.Nodup → (mp ++ pairsOf (recsOf Δg)).Nodup) ∧
        (∀ g ∈ Δg, ∃ c1 ∈ c1s, ∃ c2 ∈ List.range env.sheet2.Headers.length,
          g.Tab1 = env.tab1 ∧ g.Tab2 = env.tab2 ∧
          g.Header1 = env.sheet1.Headers.getD c1 "" ∧
          g.Header2 = env.sheet2.Headers.getD c2 "" ∧ g.Matches ≠ [] ∧
          ∀ m ∈ g.Matches, RecA env c1 m ∧ RecB env c2 m ∧ RecKind env m) ∧
        (∀ c1 ∈ c1s, ∀ c2 ∈ List.range env.sheet2.Headers.length,
          ∀ k, k < env.sheet1.Rows.length → c1 < (env.sheet1.Rows.getD k []).length →
            ∀ idx ∈ keyMapLookup env.sheet2.Rows c2
                (standardKey ((env.sheet1.Rows.getD k []).getD c1 "")),
              (k + 2, idx) ∈ mp ++ pairsOf (recsOf Δg)) := by
  intro c1s
  induction c1s with
  | nil =>
    intro gs mp
    exact ⟨[], by simp [colPass1, recsOf_nil, pairsOf], by simp [recsOf_nil, pairsOf],
      by simp, by simp⟩
  | cons c1 rest ih =>
    intro gs mp
    rcases colPass2_spec env c1 (List.range env.sheet2.Headers.length) gs mp with
      ⟨Δg₂, heq2, hnd2, hgrp2, hall2⟩
    have h1 : (colPass2 env c1 (List.range env.sheet2.Headers.length) gs mp).1 = gs ++ Δg₂ := by
      rw [heq2]
    have h2 : (colPass2 env c1 (List.range env.sheet2.Headers.length) gs mp).2 =
        mp ++ pairsOf (recsOf Δg₂) := by
      rw [heq2]
    have hstep : colPass1 env (c1 :: rest) gs mp =
        colPass1 env rest (gs ++ Δg₂) (mp ++ pairsOf (recsOf Δg₂)) := by
      rw [colPass1, h1, h2]
    rcases ih (gs ++ Δg₂) (mp ++ pairsOf (recsOf Δg₂)) with ⟨Δg', heq', hnd', hgrp', hall'⟩
    refine ⟨Δg₂ ++ Δg', ?_, ?_, ?_, ?_⟩
    · rw [hstep, heq', recsOf_append]
      simp [pairsOf]
    · intro hnod
      have := hnd' (hnd2 hnod)
      rw [recsOf_append]
      simpa [pairsOf] using this
    · intro g hg
      rcases List.mem_append.mp hg with hg | hg
      · rcases hgrp2 g hg with ⟨c2', hc2', hrest⟩
        exact ⟨c1, List.mem_cons_self _ _, c2', hc2', hrest⟩
      · rcases hgrp' g hg with ⟨c1', hc1', hrest⟩
        exact ⟨c1', List.mem_cons_of_mem _ hc1', hrest⟩
    · intro c1' hc1' c2' hc2' k hk hc1k idx hidx
      rcases List.mem_cons.mp hc1' with rfl | hc1'
      · have h3 := hall2 c2' hc2' k hk hc1k idx hidx
        rw [recsOf_append]
        rcases List.mem_append.mp h3 with h4 | h4
        · exact List.mem_append_left _ h4
        · refine List.mem_append_right _ ?_
          simp only [pairsOf, List.map_append]
          exact List.mem_append_left _ h4
      · have h3 := hall' c1' hc1' c2' hc2' k hk hc1k idx hidx
        rw [recsOf_append]
        simpa [pairsOf, List.append_assoc] using h3

theorem matchRun_eq_spec (env : MatchEnv) :
    ∃ Δg : List MatchGroup,
      matchRun env = Δg ∧
      (pairsOf (recsOf Δg)).Nodup ∧
      (∀ g ∈ Δg, ∃ c1 ∈ List.range env.sheet1.Headers.length,
        ∃ c2 ∈ List.range env.sheet2.Headers.length,
        g.Tab1 = env.tab1 ∧ g.Tab2 = env.tab2 ∧
        g.Header1 = env.sheet1.Headers.getD c1 "" ∧
        g.Header2 = env.sheet2.Headers.getD c2 "" ∧ g.Matches ≠ [] ∧
        ∀ m ∈ g.Matches, RecA env c1 m ∧ RecB env c2 m ∧ RecKind env m) ∧
      (∀ c1 ∈ List.range env.sheet1.Headers.length,
        ∀ c2 ∈ List.range env.sheet2.Headers.length,
        ∀ k, k < env.sheet1.Rows.length → c1 < (env.sheet1.Rows.getD k []).length →
          ∀ idx ∈ keyMapLookup env.sheet2.Rows c2
              (standardKey ((env.sheet1.Rows.getD k []).getD c1 "")),
            (k + 2, idx) ∈ pairsOf (recsOf Δg)) := by
  rcases colPass1_spec env (List.range env.sheet1.Headers.length) [] [] with
    ⟨Δg, heq, hnd, hgrp, hall⟩
  refine ⟨Δg, by simp [matchRun, heq], by simpa using hnd List.nodup_nil, hgrp, ?_⟩
  intro c1 hc1 c2 hc2 k hk hc1k idx hidx
  have := hall c1 hc1 c2 hc2 k hk hc1k idx hidx
  simpa using this

/-- Across the whole output of one match run, the `(row1, row2)` pairs of all
records (in all groups) are pairwise distinct: the shared `matchedPairs` set
suppresses every rediscovery of a pair, in the same or any later column pair. -/
theorem matchRun_nodup (env : MatchEnv) : (pairsOf (recsOf (matchRun env))).Nodup := by
  rcases matchRun_eq_spec env with ⟨Δg, heq, hnd, _, _⟩
  rw [heq]
  exact hnd

/-- Every emitted group comes from a column pair in range, and all its records
are sound for that column pair. -/
theorem matchRun_sound (env : MatchEnv) :
    ∀ g ∈ matchRun env, ∃ c1 c2, c1 < env.sheet1.Headers.length ∧
      c2 < env.sheet2.Headers.length ∧ g.Tab1 = env.tab1 ∧ g.Tab2 = env.tab2 ∧
      g.Header1 = env.sheet1.Headers.getD c1 "" ∧
      g.Header2 = env.sheet2.Headers.getD c2 "" ∧ g.Matches ≠ [] ∧
      ∀ m ∈ g.Matches, RecA env c1 m ∧ RecB env c2 m ∧ RecKind env m := by
  intro g hg
  rcases matchRun_eq_spec env with ⟨Δg, heq, _, hgrp, _⟩
  rw [heq] at hg
  rcases hgrp g hg with ⟨c1, hc1, c2, hc2, hrest⟩
  exact ⟨c1, c2, List.mem_range.mp hc1, List.mem_range.mp hc2, hrest⟩

/-- Completeness of the matched-pairs set: every row pair whose cells in some
in-range column pair have equal non-empty keys is reported by some record of
the run (in the group of the first column pair that matched it). -/
theorem matchRun_complete (env : MatchEnv) (c1 c2 i j : Nat)
    (hc1 : c1 < env.sheet1.Headers.length) (hc2 : c2 < env.sheet2.Headers.length)
    (hi : i < env.sheet1.Rows.length) (hj : j < env.sheet2.Rows.length)
    (hic : c1 < (env.sheet1.Rows.getD i []).length)
    (hjc : c2 < (env.sheet2.Rows.getD j []).length)
    (hkey : standardKey ((env.sheet1.Rows.getD i []).getD c1 "") =
      standardKey ((env.sheet2.Rows.getD j []).getD c2 ""))
    (hne : standardKey ((env.sheet1.Rows.getD i []).getD c1 "") ≠ "") :
    ∃ m, m ∈ recsOf (matchRun env) ∧ m.OriginalRow1 = i + 2 ∧ m.OriginalRow2 = j + 2 := by
  rcases matchRun_eq_spec env with ⟨Δg, heq, _, _, hall⟩
  have hidx : j + 2 ∈ keyMapLookup env.sheet2.Rows c2
      (standardKey ((env.sheet1.Rows.getD i []).getD c1 "")) :=
    (mem_keyMapLookup _ _ _ _).mpr ⟨j, hj, rfl, hjc, hkey.symm, hne⟩
  have hmem := hall c1 (List.mem_range.mpr hc1) c2 (List.mem_range.mpr hc2) i hi hic
    (j + 2) hidx
  rcases List.mem_map.mp hmem with ⟨m, hm, hm2⟩
  rw [heq]
  exact ⟨m, hm, (Prod.ext_iff.mp hm2).1, (Prod.ext_iff.mp hm2).2⟩

theorem matches_sublist (gs : List MatchGroup) (g : MatchGroup) (hg : g ∈ gs) :
    g.Matches.Sublist (recsOf gs) := by
  induction gs with
  | nil => cases hg
  | cons g' rest ih =>
    rcases List.mem_cons.mp hg with rfl | hg'
    · rw [recsOf_cons]
      exact List.sublist_append_left _ _
    · rw [recsOf_cons]
      exact (ih hg').trans (List.sublist_append_right _ _)

/-- Within any one group of the output, the record pairs are distinct. -/
theorem matchRun_group_nodup (env : MatchEnv) (g : MatchGroup) (hg : g ∈ matchRun env) :
    (pairsOf g.Matches).Nodup :=
  List.Nodup.sublist (List.Sublist.map _ (matches_sublist _ _ hg)) (matchRun_nodup env)

theorem max2_eq (a b : Nat) : max2 a b = max a b := by
  unfold max2
  rw [Nat.max_def]
  split_ifs <;> omega

/-! ### The claims -/

/-- C1, counterexample: the matched-pairs set of `matchHandler` is created
before the column loops, so it is global, not per column pair.  On
`envPairScope` the row pair (2, 2) matches under both column pairs
(`h1`/`g` and `h2`/`g`), is reported in the first group, but no group for
`h2` is emitted at all — the claim's "reported in both corresponding Match
Groups" fails. -/
theorem c1_counterexample :
    (∃ g ∈ matchRun envPairScope, g.Header1 = "h1" ∧
      ∃ m ∈ g.Matches, m.OriginalRow1 = 2 ∧ m.OriginalRow2 = 2) ∧
    ¬ ∃ g ∈ matchRun envPairScope, g.Header1 = "h2" := by
  decide

/-- C1, amended: the matched-pairs suppression set is global across the whole
comparison, so every `(rowA, rowB)` pair appears in at most one Match Record
across the entire output — a pair matched under one column pair is suppressed
under every later column pair. -/
theorem c1_amended_global_dedup (env : MatchEnv) :
    (pairsOf (recsOf (matchRun env))).Nodup :=
  matchRun_nodup env

/-- C2, counterexample: `isFuzzyMatch` returns `true` on two values whose
normalized keys are both empty (the `s1 == s2` fast path fires before the
empty-key guard), so with fuzzy matching enabled two blank cells do produce
a Match Record. -/
theorem c2_counterexample :
    standardKey "" = "" ∧ isFuzzyMatch "" "" 0 = true ∧
    matchRun envBlank = [⟨"S1", "S2", "H", "G", [⟨2, 2, "", "", true⟩]⟩] := by
  decide

/-- C2, amended: with fuzzy matching disabled, no Match Record is ever
produced for a pair of cells whose normalized keys are both empty — every
record then has equal and non-empty normalized keys (the exact pass never
indexes empty keys).  With fuzzy enabled the guard fails, as the
counterexample shows. -/
theorem c2_amended_empty_guard (env : MatchEnv) (hf : env.useFuzzy = false) :
    ∀ g ∈ matchRun env, ∀ m ∈ g.Matches,
      standardKey m.Val1 = standardKey m.Val2 ∧ standardKey m.Val1 ≠ "" := by
  intro g hg m hm
  rcases matchRun_sound env g hg with ⟨c1, c2, _, _, _, _, _, _, _, hrec⟩
  rcases hrec m hm with ⟨_, _, hkind⟩
  cases hfz : m.IsFuzzy
  · exact hkind.1 hfz
  · have := (hkind.2 hfz).1
    rw [hf] at this
    cases this

theorem c2_witness :
    standardKey mExact.Val1 = standardKey mExact.Val2 ∧ standardKey mExact.Val1 ≠ "" :=
  c2_amended_empty_guard envExact rfl gExact (by decide) mExact (by decide)

/-- C3: within one column-pair's group every `(rowA, rowB)` pair appears in
at most one record, and the fuzzy pass never emits a record for a cell pair
the exact pass of that group would discover (equal non-empty keys) — on the
spec's exact-priority test exactly one record is produced and it is the
exact one. -/
theorem c3_pair_once_exact_priority :
    (∀ (env : MatchEnv), ∀ g ∈ matchRun env,
      (pairsOf g.Matches).Nodup ∧
      ∀ m ∈ g.Matches, m.IsFuzzy = true →
        ¬(standardKey m.Val1 = standardKey m.Val2 ∧ standardKey m.Val1 ≠ "")) ∧
    matchRun envFoo = [gFoo] := by
  constructor
  · intro env g hg
    refine ⟨matchRun_group_nodup env g hg, ?_⟩
    intro m hm hfz
    rcases matchRun_sound env g hg with ⟨c1, c2, _, _, _, _, _, _, _, hrec⟩
    rcases hrec m hm with ⟨_, _, hkind⟩
    exact (hkind.2 hfz).2.2
  · decide

theorem c3_witness :
    (pairsOf gBlank.Matches).Nodup ∧
    ¬(standardKey mBlank.Val1 = standardKey mBlank.Val2 ∧ standardKey mBlank.Val1 ≠ "") :=
  ⟨(c3_pair_once_exact_priority.1 envBlank gBlank (by decide)).1,
   (c3_pair_once_exact_priority.1 envBlank gBlank (by decide)).2 mBlank (by decide) (by decide)⟩

/-- C4: `levenshteinDistance s1 s2` is the least number of single-character
insertions, deletions or substitutions transforming `s1` into `s2`. -/
theorem c4_levenshtein_least (s1 s2 : String) :
    IsLeast {n | StepsN n s1.data s2.data} (levenshteinDistance s1 s2) := by
  rw [levenshteinDistance_eq_lev]
  exact lev_isLeast _ _

/-- C5: the edit distance computed by `levenshteinDistance` is symmetric. -/
theorem c5_levenshtein_comm (a b : String) :
    levenshteinDistance a b = levenshteinDistance b a := by
  rw [levenshteinDistance_eq_lev, levenshteinDistance_eq_lev]
  exact lev_comm _ _

/-- C6: with threshold 100, `isFuzzyMatch` accepts every pair of values whose
normalized keys are both non-empty. -/
theorem c6_threshold_100 (a b : String) (ha : standardKey a ≠ "") (hb : standardKey b ≠ "") :
    isFuzzyMatch a b 100 = true := by
  simp only [isFuzzyMatch]
  split_ifs with h1 h2 h3
  · rfl
  · rcases h2 with h | h
    · exact (ha h).elim
    · exact (hb h).elim
  · rfl
  · rw [decide_eq_true_eq]
    have hd : levenshteinDistance (standardKey a) (standardKey b) ≤
        max2 (standardKey a).length (standardKey b).length := by
      rw [levenshteinDistance_eq_lev, max2_eq]
      exact lev_le_max _ _
    have h100 := Nat.mul_le_mul_right 100 hd
    exact_mod_cast h100

theorem c6_witness :
    standardKey "ab" ≠ "" ∧ standardKey "xy" ≠ "" ∧ isFuzzyMatch "ab" "xy" 100 = true :=
  ⟨by decide, by decide, c6_threshold_100 "ab" "xy" (by decide) (by decide)⟩

/-- C7: every record of every emitted group stems from data rows `i` of A and
`j` of B and reports exactly `OriginalRow1 = i + 2` and `OriginalRow2 = j + 2`,
with `Val1`/`Val2` the cells of those rows in the group's columns. -/
theorem c7_row_offset (env : MatchEnv) (g : MatchGroup) (m : MatchResult)
    (hg : g ∈ matchRun env) (hm : m ∈ g.Matches) :
    ∃ c1 c2 i j, c1 < env.sheet1.Headers.length ∧ c2 < env.sheet2.Headers.length ∧
      g.Header1 = env.sheet1.Headers.getD c1 "" ∧
      g.Header2 = env.sheet2.Headers.getD c2 "" ∧
      i < env.sheet1.Rows.length ∧ j < env.sheet2.Rows.length ∧
      m.OriginalRow1 = i + 2 ∧ m.OriginalRow2 = j + 2 ∧
      m.Val1 = (env.sheet1.Rows.getD i []).getD c1 "" ∧
      m.Val2 = (env.sheet2.Rows.getD j []).getD c2 "" := by
  rcases matchRun_sound env g hg with ⟨c1, c2, hc1, hc2, _, _, hh1, hh2, _, hrec⟩
  rcases hrec m hm with ⟨⟨i, hi, hO1, _, hv1⟩, ⟨j, hj, hO2, _, hv2⟩, _⟩
  exact ⟨c1, c2, i, j, hc1, hc2, hh1, hh2, hi, hj, hO1, hO2, hv1, hv2⟩

theorem c7_witness :
    ∃ c1 c2 i j, c1 < envExact.sheet1.Headers.length ∧
      c2 < envExact.sheet2.Headers.length ∧
      gExact.Header1 = envExact.sheet1.Headers.getD c1 "" ∧
      gExact.Header2 = envExact.sheet2.Headers.getD c2 "" ∧
      i < envExact.sheet1.Rows.length ∧ j < envExact.sheet2.Rows.length ∧
      mExact.OriginalRow1 = i + 2 ∧ mExact.OriginalRow2 = j + 2 ∧
      mExact.Val1 = (envExact.sheet1.Rows.getD i []).getD c1 "" ∧
      mExact.Val2 = (envExact.sheet2.Rows.getD j []).getD c2 "" :=
  c7_row_offset envExact gExact mExact (by decide) (by decide)

/-- C8: the matching pass is total, and a row too short for the compared
column contributes no record: every emitted record stems from rows that
reach the compared columns; on the concrete ragged run the short A-row
produces nothing and the run completes normally. -/
theorem c8_ragged_tolerance :
    (∀ (env : MatchEnv) (g : MatchGroup) (m : MatchResult), g ∈ matchRun env →
      m ∈ g.Matches → ∃ c1 c2 i j,
        g.Header1 = env.sheet1.Headers.getD c1 "" ∧
        g.Header2 = env.sheet2.Headers.getD c2 "" ∧
        i < env.sheet1.Rows.length ∧ j < env.sheet2.Rows.length ∧
        m.OriginalRow1 = i + 2 ∧ m.OriginalRow2 = j + 2 ∧
        c1 < (env.sheet1.Rows.getD i []).length ∧
        c2 < (env.sheet2.Rows.getD j []).length) ∧
    matchRun envRagged = [gRagged] := by
  constructor
  · intro env g m hg hm
    rcases matchRun_sound env g hg with ⟨c1, c2, _, _, _, _, hh1, hh2, _, hrec⟩
    rcases hrec m hm with ⟨⟨i, hi, hO1, hci, _⟩, ⟨j, hj, hO2, hcj, _⟩, _⟩
    exact ⟨c1, c2, i, j, hh1, hh2, hi, hj, hO1, hO2, hci, hcj⟩
  · decide

theorem c8_witness :
    ∃ c1 c2 i j,
      gRagged.Header1 = envRagged.sheet1.Headers.getD c1 "" ∧
      gRagged.Header2 = envRagged.sheet2.Headers.getD c2 "" ∧
      i < envRagged.sheet1.Rows.length ∧ j < envRagged.sheet2.Rows.length ∧
      mRagged.OriginalRow1 = i + 2 ∧ mRagged.OriginalRow2 = j + 2 ∧
      c1 < (envRagged.sheet1.Rows.getD i []).length ∧
      c2 < (envRagged.sheet2.Rows.getD j []).length :=
  c8_ragged_tolerance.1 envRagged gRagged mRagged (by decide) (by decide)

/-- C9, counterexample: because the matched-pairs set is global, an A-row
whose key equals a B-row's key in a later column pair gets no exact record
there: on `envManyCols` the keys match under the `q`/`r` column pair, yet no
group for `q` is emitted. -/
theorem c9_counterexample :
    (∃ g ∈ matchRun envManyCols, g.Header1 = "p" ∧
      ∃ m ∈ g.Matches, m.OriginalRow1 = 2 ∧ m.OriginalRow2 = 2 ∧ m.IsFuzzy = false) ∧
    standardKey "y" ≠ "" ∧
    ¬ ∃ g ∈ matchRun envManyCols, g.Header1 = "q" := by
  decide

/-- C9, amended: exact matching is many-to-many up to the global suppression
set: every row pair with equal non-empty keys in some in-range column pair is
reported by some record of the run (possibly in an earlier group), and on the
spec's concrete test — one A-row against two normalized-equal B-rows, fuzzy
off — exactly the two exact records (2,2) and (2,3) are produced in one
group. -/
theorem c9_many_to_many_amended :
    (∀ (env : MatchEnv) (c1 c2 i j : Nat),
      c1 < env.sheet1.Headers.length → c2 < env.sheet2.Headers.length →
      i < env.sheet1.Rows.length → j < env.sheet2.Rows.length →
      c1 < (env.sheet1.Rows.getD i []).length →
      c2 < (env.sheet2.Rows.getD j []).length →
      standardKey ((env.sheet1.Rows.getD i []).getD c1 "") =
        standardKey ((env.sheet2.Rows.getD j []).getD c2 "") →
      standardKey ((env.sheet1.Rows.getD i []).getD c1 "") ≠ "" →
      ∃ m, m ∈ recsOf (matchRun env) ∧
        m.OriginalRow1 = i + 2 ∧ m.OriginalRow2 = j + 2) ∧
    matchRun envAlice = [⟨"S1", "S2", "Name", "FullName",
      [⟨2, 2, "Alice", "alice", false⟩, ⟨2, 3, "Alice", "alice", false⟩]⟩] := by
  constructor
  · intro env c1 c2 i j h1 h2 h3 h4 h5 h6 h7 h8
    exact matchRun_complete env c1 c2 i j h1 h2 h3 h4 h5 h6 h7 h8
  · decide

theorem c9_witness :
    ∃ m, m ∈ recsOf (matchRun envAlice) ∧
      m.OriginalRow1 = 0 + 2 ∧ m.OriginalRow2 = 1 + 2 :=
  c9_many_to_many_amended.1 envAlice 0 0 0 1 (by decide) (by decide) (by decide)
    (by decide) (by decide) (by decide) (by decide) (by decide)

/-- C10: every row number stored in the per-column index is in bounds — it
points at an existing B-row whose length exceeds `c2`, and the cell found
there is the indexed one — so the exact pass's read of
`Rows[row2Idx-2][c2]` never goes out of bounds. -/
theorem c10_index_bounds (rows2 : List (List String)) (c2 : Nat) (key : String) (idx : Nat)
    (h : idx ∈ keyMapLookup rows2 c2 key) :
    2 ≤ idx ∧ idx - 2 < rows2.length ∧ c2 < (rows2.getD (idx - 2) []).length ∧
    standardKey ((rows2.getD (idx - 2) []).getD c2 "") = key := by
  rcases (mem_keyMapLookup _ _ _ _).mp h with ⟨j, hj, hidx, hc, hk, _⟩
  have h2 : idx - 2 = j := by omega
  rw [h2]
  exact ⟨by omega, by omega, hc, hk⟩

theorem c10_witness :
    2 ≤ 2 ∧ 2 - 2 < ([["x"]] : List (List String)).length ∧
    0 < (([["x"]] : List (List String)).getD (2 - 2) []).length ∧
    standardKey ((([["x"]] : List (List String)).getD (2 - 2) []).getD 0 "") = "x" :=
  c10_index_bounds [["x"]] 0 "x" 2 (by decide)

end EDMS
